import Mathlib

/-!
Verification of the procedural background shader and renderer-host plumbing
of the np-website repository (src/App.tsx).

The fragment shader is a pure real-valued function; it is embedded here
over the real numbers, following the GLSL source line by line.  The
renderer-host state (the uTime and uResolution uniforms and the plane
geometry) is embedded as an explicit state type with an event step
function.  A computable rational interval evaluator, proved sound against
the real-valued embedding, settles the claims that need concrete numeric
evaluation of the shader.
-/

namespace NpSite

noncomputable section RealModel

/-- GLSL fract: x - floor x. -/
def fractR (x : ℝ) : ℝ := x - ⌊x⌋

/-- GLSL length of a 2-vector. -/
def length2 (x y : ℝ) : ℝ := Real.sqrt (x * x + y * y)

/-- Source: float sdCircle(vec2 p, float r) { return length(p) - r; } -/
def sdCircle (x y r : ℝ) : ℝ := length2 x y - r

/-- GLSL clamp(x, lo, hi) = min(max(x, lo), hi). -/
def clampR (x lo hi : ℝ) : ℝ := min (max x lo) hi

/-- GLSL smoothstep(e0, e1, x). -/
def smoothstepR (e0 e1 x : ℝ) : ℝ :=
  let t := clampR ((x - e0) / (e1 - e0)) 0 1
  t * t * (3 - 2 * t)

/-- GLSL mix(a, b, t) = a*(1-t) + b*t. -/
def mixR (a b t : ℝ) : ℝ := a * (1 - t) + b * t

/-- First component of p * rot(a), where rot(a) = mat2(c,-s,s,c):
the source multiplies the row vector uv on the left of the matrix. -/
def rotX (a x y : ℝ) : ℝ := x * Real.cos a - y * Real.sin a

/-- Second component of p * rot(a). -/
def rotY (a x y : ℝ) : ℝ := x * Real.sin a + y * Real.cos a

/-- Source: p *= 1.0 + i * 0.3 (layer scale factor). -/
def layerScale (i : ℝ) : ℝ := 1 + i * 0.3

/-- Source: p.x += sin(p.y * 3.0 + time * (1.0 + i * 0.5)) * 0.3. -/
def waveX (time i x y : ℝ) : ℝ := x + Real.sin (y * 3 + time * (1 + i * 0.5)) * 0.3

/-- Source: p.y += cos(p.x * 2.0 + time * (1.2 + i * 0.3)) * 0.2; the x
argument is the component of p after the previous line ran. -/
def waveY (time i x y : ℝ) : ℝ := y + Real.cos (x * 2 + time * (1.2 + i * 0.3)) * 0.2

/-- The point fed to the tiling step of layer i: rotation, then scaling,
then the two sequential wave-distortion updates. -/
def layerPoint (time i x y : ℝ) : ℝ × ℝ :=
  let a := time * 0.1 * (i + 1)
  let px := rotX a x y * layerScale i
  let py := rotY a x y * layerScale i
  let px2 := waveX time i px py
  let py2 := waveY time i px2 py
  (px2, py2)

/-- Source: p = fract(p * 1.5) - 0.5, componentwise. -/
def tile (v : ℝ) : ℝ := fractR (v * 1.5) - 0.5

/-- Source: circle radius 0.2 - i * 0.05 of layer i. -/
def layerRadius (i : ℝ) : ℝ := 0.2 - i * 0.05

/-- Source lines d = abs(sin(d*8.0 + time*2.0)) / 8.0;
d = smoothstep(0.0, 0.1, d); d = 1.0 - d. -/
def ringD (time d : ℝ) : ℝ := 1 - smoothstepR 0 0.1 (|Real.sin (d * 8 + time * 2)| / 8)

/-- The scalar d of layer i as a function of the pre-tiling point. -/
def layerDFromPre (time i px py : ℝ) : ℝ :=
  ringD time (sdCircle (tile px) (tile py) (layerRadius i))

/-- The scalar d of layer i as a function of the normalized coordinate. -/
def layerD (time i x y : ℝ) : ℝ :=
  layerDFromPre time i (layerPoint time i x y).1 (layerPoint time i x y).2

/-- An RGB color triple. -/
structure Vec3 where
  x : ℝ
  y : ℝ
  z : ℝ

/-- Componentwise addition of colors. -/
def v3add (a b : Vec3) : Vec3 := ⟨a.x + b.x, a.y + b.y, a.z + b.z⟩

/-- Scaling of a color by a scalar. -/
def v3smul (s : ℝ) (a : Vec3) : Vec3 := ⟨s * a.x, s * a.y, s * a.z⟩

/-- Source: layerColor is vec3(0.0) overwritten by the three equality tests
on the loop index. -/
def layerColor (i : ℝ) : Vec3 :=
  if i = 0 then ⟨0.15, 0.25, 0.4⟩
  else if i = 1 then ⟨0.25, 0.15, 0.35⟩
  else if i = 2 then ⟨0.2, 0.3, 0.25⟩
  else ⟨0, 0, 0⟩

/-- The color contribution of layer i as a function of the pre-tiling
point, per the source line col += layerColor * d * (0.6 - i * 0.1). -/
def layerContribFromPre (time i px py : ℝ) : Vec3 :=
  v3smul (layerDFromPre time i px py * (0.6 - i * 0.1)) (layerColor i)

/-- Source: col += layerColor * d * (0.6 - i * 0.1). -/
def layerContrib (time i x y : ℝ) : Vec3 :=
  layerContribFromPre time i (layerPoint time i x y).1 (layerPoint time i x y).2

/-- The accumulated col after the three loop iterations i = 0, 1, 2. -/
def colSum (time x y : ℝ) : Vec3 :=
  v3add (v3add (v3add ⟨0, 0, 0⟩ (layerContrib time 0 x y))
      (layerContrib time 1 x y))
    (layerContrib time 2 x y)

/-- Source: fract(sin(dot(uv, vec2(12.9898, 78.233))) * 43758.5453). -/
def noiseHash (x y : ℝ) : ℝ :=
  fractR (Real.sin (x * 12.9898 + y * 78.233) * 43758.5453)

/-- Source: vec3 background = vec3(0.08, 0.12, 0.18). -/
def baseBackground : Vec3 := ⟨0.08, 0.12, 0.18⟩

/-- Source: background += noise * 0.02 (the scalar broadcasts). -/
def backgroundAt (x y : ℝ) : Vec3 :=
  ⟨0.08 + noiseHash x y * 0.02, 0.12 + noiseHash x y * 0.02, 0.18 + noiseHash x y * 0.02⟩

/-- Source: col *= 0.7 + 0.3 * vignette with vignette = 1 - length(uv * 0.5). -/
def vignetteFactor (x y : ℝ) : ℝ := 0.7 + 0.3 * (1 - length2 (x * 0.5) (y * 0.5))

/-- Componentwise mix with a scalar blend factor, as in the source line
col = mix(background, background + col, 0.8). -/
def mixV3 (a b : Vec3) (t : ℝ) : Vec3 := ⟨mixR a.x b.x t, mixR a.y b.y t, mixR a.z b.z t⟩

/-- The RGB part of gl_FragColor as a function of the normalized
coordinate uv in [-1,1]^2 and the uTime uniform. -/
def shade (x y uTime : ℝ) : Vec3 :=
  let time := uTime * 0.3
  let col := colSum time x y
  let bg := backgroundAt x y
  let blended := mixV3 bg (v3add bg col) 0.8
  v3smul (vignetteFactor x y) blended

/-- The full fragment program main: uv = (vUv - 0.5) * 2.0, the uResolution
uniform declared but never read, output (col, 1.0). -/
def fragMain (uResolution : ℝ × ℝ) (vUv : ℝ × ℝ) (uTime : ℝ) : Vec3 × ℝ :=
  (shade ((vUv.1 - 0.5) * 2) ((vUv.2 - 0.5) * 2) uTime, 1)

/-- Total brightness of a color: the sum of the three channels. -/
def brightness (c : Vec3) : ℝ := c.x + c.y + c.z

/-- The uniforms object of the ShaderPlane component. -/
structure Uniforms where
  uTime : ℝ
  uResolution : ℝ × ℝ

/-- The GPU-resident state of the ShaderPlane component: its uniforms and
the constructor arguments of its planeGeometry. -/
structure SceneState where
  uniforms : Uniforms
  planeGeometryArgs : ℝ × ℝ

/-- Mount-time state: uTime starts at 0, uResolution at the window size,
and the geometry is planeGeometry args [2, 2]. -/
def initScene (windowSize : ℝ × ℝ) : SceneState :=
  { uniforms := { uTime := 0, uResolution := windowSize }
    planeGeometryArgs := (2, 2) }

/-- Host events the mounted component can receive. -/
inductive HostEvent where
  | frame (elapsedTime : ℝ)
  | windowResize (newSize : ℝ × ℝ)

/-- Event handling of the ShaderPlane component: the useFrame callback
writes the clock into uniforms.uTime.value; the component registers no
resize listener, so a window resize changes nothing in its state. -/
def handleEvent (s : SceneState) : HostEvent → SceneState
  | .frame t => { s with uniforms := { s.uniforms with uTime := t } }
  | .windowResize _ => s

/-- Folding a list of host events over a state. -/
def runEvents (s : SceneState) (evs : List HostEvent) : SceneState :=
  evs.foldl handleEvent s

/-- The wave distortion exactly as the spec words it: the x update first,
then the y update reading the already-updated x. -/
def specWaveDistortion (time i x y : ℝ) : ℝ × ℝ :=
  let x2 := x + Real.sin (y * 3 + time * (1 + i * 0.5)) * 0.3
  let y2 := y + Real.cos (x2 * 2 + time * (1.2 + i * 0.3)) * 0.2
  (x2, y2)

end RealModel

section StateLemmas

/-- Both event kinds leave uResolution unchanged. -/
theorem handleEvent_uResolution (s : SceneState) (e : HostEvent) :
    (handleEvent s e).uniforms.uResolution = s.uniforms.uResolution := by
  cases e <;> rfl

/-- Both event kinds leave the geometry arguments unchanged. -/
theorem handleEvent_geometry (s : SceneState) (e : HostEvent) :
    (handleEvent s e).planeGeometryArgs = s.planeGeometryArgs := by
  cases e <;> rfl

/-- Any event sequence leaves uResolution unchanged. -/
theorem runEvents_uResolution (s : SceneState) (evs : List HostEvent) :
    (runEvents s evs).uniforms.uResolution = s.uniforms.uResolution := by
  induction evs generalizing s with
  | nil => rfl
  | cons e evs ih =>
      simpa [runEvents, List.foldl_cons, handleEvent_uResolution] using
        (handleEvent_uResolution s e ▸ ih (handleEvent s e))

/-- Any event sequence leaves the geometry arguments unchanged. -/
theorem runEvents_geometry (s : SceneState) (evs : List HostEvent) :
    (runEvents s evs).planeGeometryArgs = s.planeGeometryArgs := by
  induction evs generalizing s with
  | nil => rfl
  | cons e evs ih =>
      simpa [runEvents, List.foldl_cons, handleEvent_geometry] using
        (handleEvent_geometry s e ▸ ih (handleEvent s e))

end StateLemmas

section EasyClaims

/-- C1: the fragment program is deterministic and its output does not
depend on the uResolution uniform: two evaluations at the same vUv and
uTime agree, for any pair of resolution values. -/
theorem fragMain_deterministic_resolution_independent
    (res res2 : ℝ × ℝ) (vUv : ℝ × ℝ) (uTime : ℝ) :
    fragMain res vUv uTime = fragMain res vUv uTime ∧
    fragMain res vUv uTime = fragMain res2 vUv uTime :=
  ⟨rfl, rfl⟩

/-- C3: inside each layer, after rotation and scaling, the point update is
exactly the sequential wave distortion: x += sin(y*3 + time*(1 + i*0.5))*0.3
followed by y += cos(x*2 + time*(1.2 + i*0.3))*0.2, where the y update
reads the already-updated x. -/
theorem layerPoint_eq_sequential_wave (time i x y : ℝ) :
    layerPoint time i x y =
      specWaveDistortion time i
        (rotX (time * 0.1 * (i + 1)) x y * layerScale i)
        (rotY (time * 0.1 * (i + 1)) x y * layerScale i) := by
  rfl

/-- C4, counterexample: starting from a window of 800 x 600, a resize
event to 1600 x 1200 leaves the uResolution uniform at its mount value:
the component registers no resize handler, so the uniform is not updated
to the new viewport size as the claim asserts. -/
theorem resize_does_not_update_resolution :
    (handleEvent (initScene (800, 600))
        (HostEvent.windowResize (1600, 1200))).uniforms.uResolution ≠ (1600, 1200) ∧
    (handleEvent (initScene (800, 600))
        (HostEvent.windowResize (1600, 1200))).uniforms.uResolution = (800, 600) := by
  refine ⟨fun h => ?_, rfl⟩
  have hx : (800 : ℝ) = 1600 := congrArg Prod.fst h
  norm_num at hx

/-- C4, amended: the uResolution uniform is written once at mount from the
window size and never changes afterwards, whatever host events arrive. -/
theorem uResolution_constant_after_mount (windowSize : ℝ × ℝ) (evs : List HostEvent) :
    (runEvents (initScene windowSize) evs).uniforms.uResolution = windowSize := by
  rw [runEvents_uResolution]
  rfl

/-- Adding the tiling period 1/1.5 to the input of tile changes nothing. -/
theorem tile_period (v : ℝ) : tile (v + 1 / 1.5) = tile v := by
  have harg : (v + 1 / 1.5) * 1.5 = v * 1.5 + (1 : ℤ) := by push_cast; ring_nf
  have hfr : fractR (v * 1.5 + (1 : ℤ)) = fractR (v * 1.5) := by
    unfold fractR
    rw [Int.floor_add_int]
    push_cast
    ring
  unfold tile
  rw [harg, hfr]

/-- C6: for fixed time and fixed layer i, the scalar d and the color
contribution of the layer, viewed as functions of the pre-tiling point,
are periodic with period 1/1.5 in each spatial axis. -/
theorem layer_pattern_periodic (time i px py : ℝ) :
    layerDFromPre time i (px + 1 / 1.5) py = layerDFromPre time i px py ∧
    layerDFromPre time i px (py + 1 / 1.5) = layerDFromPre time i px py ∧
    layerContribFromPre time i (px + 1 / 1.5) py = layerContribFromPre time i px py ∧
    layerContribFromPre time i px (py + 1 / 1.5) = layerContribFromPre time i px py := by
  have hx : layerDFromPre time i (px + 1 / 1.5) py = layerDFromPre time i px py := by
    unfold layerDFromPre
    rw [tile_period]
  have hy : layerDFromPre time i px (py + 1 / 1.5) = layerDFromPre time i px py := by
    unfold layerDFromPre
    rw [tile_period]
  refine ⟨hx, hy, ?_, ?_⟩ <;> unfold layerContribFromPre
  · rw [hx]
  · rw [hy]

/-- C8: the rectangle geometry is created at mount as a 2 by 2 plane and
no host event ever mutates it. -/
theorem plane_geometry_constant (windowSize : ℝ × ℝ) (evs : List HostEvent) :
    (runEvents (initScene windowSize) evs).planeGeometryArgs = (2, 2) := by
  rw [runEvents_geometry]
  rfl

/-- C10: at the exact center uv = (0, 0) the hash noise term is exactly 0,
so the background entering the blend is exactly (0.08, 0.12, 0.18). -/
theorem noise_zero_at_center :
    noiseHash 0 0 = 0 ∧ backgroundAt 0 0 = baseBackground := by
  have h : noiseHash 0 0 = 0 := by
    unfold noiseHash fractR
    norm_num
  refine ⟨h, ?_⟩
  unfold backgroundAt baseBackground
  rw [h]
  norm_num

end EasyClaims

section Bounds

/-- Projection of an explicit color onto its first channel. -/
@[simp] theorem v3mk_x (a b c : ℝ) : (Vec3.mk a b c).x = a := rfl

/-- Projection of an explicit color onto its second channel. -/
@[simp] theorem v3mk_y (a b c : ℝ) : (Vec3.mk a b c).y = b := rfl

/-- Projection of an explicit color onto its third channel. -/
@[simp] theorem v3mk_z (a b c : ℝ) : (Vec3.mk a b c).z = c := rfl

/-- The tint of layer 0. -/
theorem layerColor_zero : layerColor 0 = ⟨0.15, 0.25, 0.4⟩ := by
  unfold layerColor
  norm_num

/-- The tint of layer 1. -/
theorem layerColor_one : layerColor 1 = ⟨0.25, 0.15, 0.35⟩ := by
  unfold layerColor
  norm_num

/-- The tint of layer 2. -/
theorem layerColor_two : layerColor 2 = ⟨0.2, 0.3, 0.25⟩ := by
  unfold layerColor
  norm_num

/-- GLSL fract always lies in the closed unit interval. -/
theorem fractR_mem (v : ℝ) : 0 ≤ fractR v ∧ fractR v ≤ 1 := by
  have h : fractR v = Int.fract v := rfl
  rw [h]
  exact ⟨Int.fract_nonneg v, (Int.fract_lt_one v).le⟩

/-- The smoothstep used by the shader stays in the closed unit interval. -/
theorem smoothstep01_mem (v : ℝ) :
    0 ≤ smoothstepR 0 0.1 v ∧ smoothstepR 0 0.1 v ≤ 1 := by
  simp only [smoothstepR, clampR]
  set t := min (max ((v - 0) / (0.1 - 0)) 0) 1 with ht
  have ht0 : 0 ≤ t := le_min (le_max_right _ 0) zero_le_one
  have ht1 : t ≤ 1 := min_le_right _ _
  constructor
  · have h3 : (0 : ℝ) ≤ 3 - 2 * t := by linarith
    exact mul_nonneg (mul_nonneg ht0 ht0) h3
  · nlinarith [mul_nonneg (sq_nonneg (1 - t)) (by linarith : (0 : ℝ) ≤ 1 + 2 * t)]

/-- The banded distance value of every layer stays in the unit interval. -/
theorem ringD_mem (time d : ℝ) : 0 ≤ ringD time d ∧ ringD time d ≤ 1 := by
  obtain ⟨h1, h2⟩ := smoothstep01_mem (|Real.sin (d * 8 + time * 2)| / 8)
  unfold ringD
  exact ⟨by linarith, by linarith⟩

/-- The layer scalar d stays in the unit interval. -/
theorem layerDFromPre_mem (time i px py : ℝ) :
    0 ≤ layerDFromPre time i px py ∧ layerDFromPre time i px py ≤ 1 :=
  ringD_mem time _

/-- Channelwise bounds on the accumulated layer color. -/
theorem colSum_bounds (time x y : ℝ) :
    (0 ≤ (colSum time x y).x ∧ (colSum time x y).x ≤ 0.295) ∧
    (0 ≤ (colSum time x y).y ∧ (colSum time x y).y ≤ 0.345) ∧
    (0 ≤ (colSum time x y).z ∧ (colSum time x y).z ≤ 0.515) := by
  obtain ⟨h0a, h0b⟩ :=
    layerDFromPre_mem time 0 (layerPoint time 0 x y).1 (layerPoint time 0 x y).2
  obtain ⟨h1a, h1b⟩ :=
    layerDFromPre_mem time 1 (layerPoint time 1 x y).1 (layerPoint time 1 x y).2
  obtain ⟨h2a, h2b⟩ :=
    layerDFromPre_mem time 2 (layerPoint time 2 x y).1 (layerPoint time 2 x y).2
  simp only [colSum, layerContrib, layerContribFromPre, layerColor_zero, layerColor_one,
    layerColor_two, v3smul, v3add, v3mk_x, v3mk_y, v3mk_z]
  refine ⟨⟨?_, ?_⟩, ⟨?_, ?_⟩, ⟨?_, ?_⟩⟩ <;> nlinarith [h0a, h0b, h1a, h1b, h2a, h2b]

/-- The vignette multiplier never exceeds 1. -/
theorem vignetteFactor_le_one (x y : ℝ) : vignetteFactor x y ≤ 1 := by
  unfold vignetteFactor length2
  have h := Real.sqrt_nonneg (x * 0.5 * (x * 0.5) + y * 0.5 * (y * 0.5))
  linarith

/-- On the square [-1,1]^2 the vignette multiplier is at least 0.7. -/
theorem vignetteFactor_ge (x y : ℝ)
    (hx1 : -1 ≤ x) (hx2 : x ≤ 1) (hy1 : -1 ≤ y) (hy2 : y ≤ 1) :
    0.7 ≤ vignetteFactor x y := by
  unfold vignetteFactor length2
  have harg : x * 0.5 * (x * 0.5) + y * 0.5 * (y * 0.5) ≤ 1 := by nlinarith
  have h := Real.sqrt_le_one.mpr harg
  linarith

/-- Stepwise product bound used to assemble the channel bounds. -/
theorem channel_product_bound (F B lo hi : ℝ)
    (hF1 : 0.7 ≤ F) (hF2 : F ≤ 1) (hB1 : lo ≤ B) (hB2 : B ≤ hi) (hlo : 0 ≤ lo) :
    0.7 * lo ≤ F * B ∧ F * B ≤ hi := by
  have hF0 : (0 : ℝ) ≤ F := by linarith
  have hB0 : (0 : ℝ) ≤ B := by linarith
  constructor
  · calc 0.7 * lo ≤ F * lo := mul_le_mul_of_nonneg_right hF1 hlo
      _ ≤ F * B := mul_le_mul_of_nonneg_left hB1 hF0
  · calc F * B ≤ 1 * B := mul_le_mul_of_nonneg_right hF2 hB0
      _ = B := one_mul B
      _ ≤ hi := hB2

set_option maxHeartbeats 1000000 in
/-- Explicit channelwise bounds on the shader output over [-1,1]^2. -/
theorem shade_channel_bounds (x y t : ℝ)
    (hx1 : -1 ≤ x) (hx2 : x ≤ 1) (hy1 : -1 ≤ y) (hy2 : y ≤ 1) :
    (0.056 ≤ (shade x y t).x ∧ (shade x y t).x ≤ 0.336) ∧
    (0.084 ≤ (shade x y t).y ∧ (shade x y t).y ≤ 0.416) ∧
    (0.126 ≤ (shade x y t).z ∧ (shade x y t).z ≤ 0.612) := by
  obtain ⟨⟨hcx1, hcx2⟩, ⟨hcy1, hcy2⟩, ⟨hcz1, hcz2⟩⟩ := colSum_bounds (t * 0.3) x y
  have hv1 := vignetteFactor_ge x y hx1 hx2 hy1 hy2
  have hv2 := vignetteFactor_le_one x y
  unfold shade backgroundAt mixV3 mixR v3add v3smul
  simp only [v3mk_x, v3mk_y, v3mk_z]
  set N := noiseHash x y with hN
  set F := vignetteFactor x y with hF
  set Cx := (colSum (t * 0.3) x y).x with hCx
  set Cy := (colSum (t * 0.3) x y).y with hCy
  set Cz := (colSum (t * 0.3) x y).z with hCz
  have hn1 : 0 ≤ N := (fractR_mem _).1
  have hn2 : N ≤ 1 := (fractR_mem _).2
  have hBx := channel_product_bound F
    ((0.08 + N * 0.02) * (1 - 0.8) + (0.08 + N * 0.02 + Cx) * 0.8)
    0.08 0.336 hv1 hv2 (by nlinarith) (by nlinarith) (by norm_num)
  have hBy := channel_product_bound F
    ((0.12 + N * 0.02) * (1 - 0.8) + (0.12 + N * 0.02 + Cy) * 0.8)
    0.12 0.416 hv1 hv2 (by nlinarith) (by nlinarith) (by norm_num)
  have hBz := channel_product_bound F
    ((0.18 + N * 0.02) * (1 - 0.8) + (0.18 + N * 0.02 + Cz) * 0.8)
    0.18 0.612 hv1 hv2 (by nlinarith) (by nlinarith) (by norm_num)
  exact ⟨⟨by linarith [hBx.1], hBx.2⟩, ⟨by linarith [hBy.1], hBy.2⟩,
    ⟨by linarith [hBz.1], hBz.2⟩⟩

end Bounds

section BoundClaims

/-- C2: the shading function is total over the normalized square and
non-negative times: every channel is a finite real, witnessed by the
explicit bound that its absolute value never exceeds 1; no evaluation
step is partial in the embedding. -/
theorem shade_total_and_finite (x y t : ℝ)
    (hx1 : -1 ≤ x) (hx2 : x ≤ 1) (hy1 : -1 ≤ y) (hy2 : y ≤ 1) (ht : 0 ≤ t) :
    |(shade x y t).x| ≤ 1 ∧ |(shade x y t).y| ≤ 1 ∧ |(shade x y t).z| ≤ 1 := by
  obtain ⟨⟨h1, h2⟩, ⟨h3, h4⟩, ⟨h5, h6⟩⟩ := shade_channel_bounds x y t hx1 hx2 hy1 hy2
  refine ⟨abs_le.mpr ⟨by linarith, by linarith⟩,
    abs_le.mpr ⟨by linarith, by linarith⟩,
    abs_le.mpr ⟨by linarith, by linarith⟩⟩

/-- C2 witness at uv = (0,0), t = 0. -/
theorem shade_total_and_finite_witness :
    |(shade 0 0 0).x| ≤ 1 ∧ |(shade 0 0 0).y| ≤ 1 ∧ |(shade 0 0 0).z| ≤ 1 :=
  shade_total_and_finite 0 0 0 (by norm_num) (by norm_num) (by norm_num) (by norm_num)
    (by norm_num)

/-- C9: over the normalized square every output channel lies strictly
between 0 and 1, for every time, so no pixel is pure black or saturated
and clamping to [0,1] would not change the value. -/
theorem shade_channels_strictly_inside_unit (x y t : ℝ)
    (hx1 : -1 ≤ x) (hx2 : x ≤ 1) (hy1 : -1 ≤ y) (hy2 : y ≤ 1) :
    (0 < (shade x y t).x ∧ (shade x y t).x < 1) ∧
    (0 < (shade x y t).y ∧ (shade x y t).y < 1) ∧
    (0 < (shade x y t).z ∧ (shade x y t).z < 1) := by
  obtain ⟨⟨h1, h2⟩, ⟨h3, h4⟩, ⟨h5, h6⟩⟩ := shade_channel_bounds x y t hx1 hx2 hy1 hy2
  exact ⟨⟨by linarith, by linarith⟩, ⟨by linarith, by linarith⟩, ⟨by linarith, by linarith⟩⟩

/-- C9 witness at uv = (0,0), t = 0. -/
theorem shade_channels_strictly_inside_unit_witness :
    (0 < (shade 0 0 0).x ∧ (shade 0 0 0).x < 1) ∧
    (0 < (shade 0 0 0).y ∧ (shade 0 0 0).y < 1) ∧
    (0 < (shade 0 0 0).z ∧ (shade 0 0 0).z < 1) :=
  shade_channels_strictly_inside_unit 0 0 0 (by norm_num) (by norm_num) (by norm_num)
    (by norm_num)

end BoundClaims

/-!
A computable rational interval kernel.  Every operation is proved sound
against the real model above, so concrete numeric facts about shade can
be settled by kernel computation.
-/

section IntervalKernel

/-- A closed rational interval. -/
structure IV where
  lo : ℚ
  hi : ℚ

/-- The interval a encloses the real number x. -/
def IV.encl (a : IV) (x : ℝ) : Prop := (a.lo : ℝ) ≤ x ∧ x ≤ (a.hi : ℝ)

/-- The point interval of a rational. -/
def ofRat (q : ℚ) : IV := ⟨q, q⟩

/-- Interval addition. -/
def addIV (a b : IV) : IV := ⟨a.lo + b.lo, a.hi + b.hi⟩

/-- Interval subtraction. -/
def subIV (a b : IV) : IV := ⟨a.lo - b.hi, a.hi - b.lo⟩

/-- Scaling of an interval by a rational constant. -/
def scaleIV (c : ℚ) (a : IV) : IV :=
  if 0 ≤ c then ⟨c * a.lo, c * a.hi⟩ else ⟨c * a.hi, c * a.lo⟩

/-- Interval product. -/
def mulIV (a b : IV) : IV :=
  ⟨min (min (a.lo * b.lo) (a.lo * b.hi)) (min (a.hi * b.lo) (a.hi * b.hi)),
   max (max (a.lo * b.lo) (a.lo * b.hi)) (max (a.hi * b.lo) (a.hi * b.hi))⟩

/-- Interval cube, using that cubing is monotone. -/
def cubeIV (a : IV) : IV := ⟨a.lo ^ 3, a.hi ^ 3⟩

/-- Interval square. -/
def sqIV (a : IV) : IV :=
  if 0 ≤ a.lo then ⟨a.lo * a.lo, a.hi * a.hi⟩
  else if a.hi ≤ 0 then ⟨a.hi * a.hi, a.lo * a.lo⟩
  else ⟨0, max (a.lo * a.lo) (a.hi * a.hi)⟩

/-- Interval absolute value. -/
def absIV (a : IV) : IV :=
  if 0 ≤ a.lo then a
  else if a.hi ≤ 0 then ⟨-a.hi, -a.lo⟩
  else ⟨0, max (-a.lo) a.hi⟩

/-- Outward rounding denominator, 2 to the 120. -/
def rden : ℚ := 2 ^ 120

/-- Round a rational down to the fixed dyadic grid. -/
def roundDown (q : ℚ) : ℚ := (⌊q * rden⌋ : ℚ) / rden

/-- Round a rational up to the fixed dyadic grid. -/
def roundUp (q : ℚ) : ℚ := (⌈q * rden⌉ : ℚ) / rden

/-- Round an interval outward to the fixed dyadic grid. -/
def roundIV (a : IV) : IV := ⟨roundDown a.lo, roundUp a.hi⟩

/-- Divide an interval by three, exactly. -/
def third (a : IV) : IV := ⟨a.lo / 3, a.hi / 3⟩

/-- Taylor enclosure of sin on arguments of magnitude at most one, with
fallback to plus or minus one elsewhere. -/
def sinSmallIV (a : IV) : IV :=
  let m := max |a.lo| |a.hi|
  if 1 < m then ⟨-1, 1⟩
  else
    let e := m ^ 4 * (5 / 96)
    ⟨a.lo - a.lo ^ 3 / 6 - e, a.hi - a.hi ^ 3 / 6 + e⟩

/-- Taylor enclosure of cos on arguments of magnitude at most one, with
fallback to plus or minus one elsewhere. -/
def cosSmallIV (a : IV) : IV :=
  let m := max |a.lo| |a.hi|
  if 1 < m then ⟨-1, 1⟩
  else
    let e := m ^ 4 * (5 / 96)
    let s := sqIV a
    ⟨1 - s.hi / 2 - e, 1 - s.lo / 2 + e⟩

/-- Triple-angle step for sin enclosures. -/
def tripleSin (s : IV) : IV := roundIV (subIV (scaleIV 3 s) (scaleIV 4 (cubeIV s)))

/-- Triple-angle step for cos enclosures. -/
def tripleCos (c : IV) : IV := roundIV (subIV (scaleIV 4 (cubeIV c)) (scaleIV 3 c))

/-- Enclosures of sin and cos, by n angle-tripling steps above the small
Taylor enclosures. -/
def sinCosIV : ℕ → IV → IV × IV
  | 0, a => (sinSmallIV a, cosSmallIV a)
  | n + 1, a =>
    let p := sinCosIV n (third a)
    (tripleSin p.1, tripleCos p.2)

/-- Sin enclosure at the working depth. -/
def sinIV (a : IV) : IV := (sinCosIV 12 a).1

/-- Cos enclosure at the working depth. -/
def cosIV (a : IV) : IV := (sinCosIV 12 a).2

/-- Interval version of GLSL fract. -/
def fractIV (a : IV) : IV :=
  if a.hi < (⌊a.lo⌋ : ℚ) + 1 then ⟨a.lo - ⌊a.lo⌋, a.hi - ⌊a.lo⌋⟩ else ⟨0, 1⟩

/-- Rational evaluation of the shader smoothstep. -/
def ssQ (v : ℚ) : ℚ :=
  let t := min (max ((v - 0) / (1 / 10 - 0)) 0) 1
  t * t * (3 - 2 * t)

/-- Interval version of the shader smoothstep, using its monotonicity. -/
def smoothstepIV (a : IV) : IV := ⟨ssQ a.lo, ssQ a.hi⟩

/-- Rounded Newton iteration for square-root upper approximations. -/
def sqrtNewton : ℕ → ℚ → ℚ → ℚ
  | 0, _, m => m
  | k + 1, q, m => sqrtNewton k q (roundUp ((m + q / m) / 2))

/-- A square-root approximation used only through the safe bounds below. -/
def sqrtApprox (q : ℚ) : ℚ := sqrtNewton 6 q (max q 1)

/-- A sound rational lower bound of the square root of q. -/
def sqrtLB (q : ℚ) : ℚ :=
  if 0 < sqrtApprox q then min (sqrtApprox q) (q / sqrtApprox q) else 0

/-- A sound rational upper bound of the square root of q. -/
def sqrtUB (q : ℚ) : ℚ :=
  if 0 < sqrtApprox q then max (sqrtApprox q) (q / sqrtApprox q) else 1 + q

/-- Interval version of the real square root. -/
def sqrtIV (a : IV) : IV :=
  ⟨if 0 < a.lo then sqrtLB a.lo else 0, if 0 < a.hi then sqrtUB a.hi else 0⟩

end IntervalKernel

section IntervalSoundness

/-- Transport an enclosure along an equality of reals. -/
theorem encl_congr {a : IV} {x y : ℝ} (h : a.encl x) (e : x = y) : a.encl y := e ▸ h

/-- The point interval encloses its rational. -/
theorem ofRat_encl (q : ℚ) : (ofRat q).encl (q : ℝ) := ⟨le_refl _, le_refl _⟩

/-- Soundness of interval addition. -/
theorem addIV_encl {a b : IV} {x y : ℝ} (ha : a.encl x) (hb : b.encl y) :
    (addIV a b).encl (x + y) := by
  obtain ⟨h1, h2⟩ := ha
  obtain ⟨h3, h4⟩ := hb
  constructor
  · show ((a.lo + b.lo : ℚ) : ℝ) ≤ x + y
    push_cast
    linarith
  · show x + y ≤ ((a.hi + b.hi : ℚ) : ℝ)
    push_cast
    linarith

/-- Soundness of interval subtraction. -/
theorem subIV_encl {a b : IV} {x y : ℝ} (ha : a.encl x) (hb : b.encl y) :
    (subIV a b).encl (x - y) := by
  obtain ⟨h1, h2⟩ := ha
  obtain ⟨h3, h4⟩ := hb
  constructor
  · show ((a.lo - b.hi : ℚ) : ℝ) ≤ x - y
    push_cast
    linarith
  · show x - y ≤ ((a.hi - b.lo : ℚ) : ℝ)
    push_cast
    linarith

/-- Soundness of scaling by a rational constant, constant on the left. -/
theorem scaleIV_encl (c : ℚ) {a : IV} {x : ℝ} (h : a.encl x) :
    (scaleIV c a).encl ((c : ℝ) * x) := by
  obtain ⟨h1, h2⟩ := h
  rcases le_or_lt 0 c with hc | hc
  · have hc' : (0 : ℝ) ≤ (c : ℝ) := by exact_mod_cast hc
    have e : scaleIV c a = ⟨c * a.lo, c * a.hi⟩ := by unfold scaleIV; rw [if_pos hc]
    rw [e]
    constructor
    · show ((c * a.lo : ℚ) : ℝ) ≤ (c : ℝ) * x
      push_cast
      exact mul_le_mul_of_nonneg_left h1 hc'
    · show (c : ℝ) * x ≤ ((c * a.hi : ℚ) : ℝ)
      push_cast
      exact mul_le_mul_of_nonneg_left h2 hc'
  · have hc' : (c : ℝ) ≤ 0 := by exact_mod_cast hc.le
    have e : scaleIV c a = ⟨c * a.hi, c * a.lo⟩ := by
      unfold scaleIV; rw [if_neg (not_le.mpr hc)]
    rw [e]
    constructor
    · show ((c * a.hi : ℚ) : ℝ) ≤ (c : ℝ) * x
      push_cast
      exact mul_le_mul_of_nonpos_left h2 hc'
    · show (c : ℝ) * x ≤ ((c * a.lo : ℚ) : ℝ)
      push_cast
      exact mul_le_mul_of_nonpos_left h1 hc'

/-- Soundness of scaling, constant on the right. -/
theorem scaleIV_encl_right (c : ℚ) {a : IV} {x : ℝ} (h : a.encl x) :
    (scaleIV c a).encl (x * (c : ℝ)) :=
  encl_congr (scaleIV_encl c h) (mul_comm _ _)

/-- Upper bound of a product by the four corner products. -/
theorem real_mul_le_max4 {A1 A2 B1 B2 x y : ℝ}
    (hx1 : A1 ≤ x) (hx2 : x ≤ A2) (hy1 : B1 ≤ y) (hy2 : y ≤ B2) :
    x * y ≤ max (max (A1 * B1) (A1 * B2)) (max (A2 * B1) (A2 * B2)) := by
  rcases le_total 0 y with hy | hy
  · have h1 : x * y ≤ A2 * y := mul_le_mul_of_nonneg_right hx2 hy
    rcases le_total 0 A2 with hA | hA
    · have h2 : A2 * y ≤ A2 * B2 := mul_le_mul_of_nonneg_left hy2 hA
      exact le_trans h1 (le_trans h2 (le_max_of_le_right (le_max_right _ _)))
    · have h2 : A2 * y ≤ A2 * B1 := mul_le_mul_of_nonpos_left hy1 hA
      exact le_trans h1 (le_trans h2 (le_max_of_le_right (le_max_left _ _)))
  · have h1 : x * y ≤ A1 * y := mul_le_mul_of_nonpos_right hx1 hy
    rcases le_total 0 A1 with hA | hA
    · have h2 : A1 * y ≤ A1 * B2 := mul_le_mul_of_nonneg_left hy2 hA
      exact le_trans h1 (le_trans h2 (le_max_of_le_left (le_max_right _ _)))
    · have h2 : A1 * y ≤ A1 * B1 := mul_le_mul_of_nonpos_left hy1 hA
      exact le_trans h1 (le_trans h2 (le_max_of_le_left (le_max_left _ _)))

/-- Lower bound of a product by the four corner products. -/
theorem real_min4_le_mul {A1 A2 B1 B2 x y : ℝ}
    (hx1 : A1 ≤ x) (hx2 : x ≤ A2) (hy1 : B1 ≤ y) (hy2 : y ≤ B2) :
    min (min (A1 * B1) (A1 * B2)) (min (A2 * B1) (A2 * B2)) ≤ x * y := by
  rcases le_total 0 y with hy | hy
  · have h1 : A1 * y ≤ x * y := mul_le_mul_of_nonneg_right hx1 hy
    rcases le_total 0 A1 with hA | hA
    · have h2 : A1 * B1 ≤ A1 * y := mul_le_mul_of_nonneg_left hy1 hA
      exact le_trans (min_le_of_left_le (min_le_left _ _)) (le_trans h2 h1)
    · have h2 : A1 * B2 ≤ A1 * y := mul_le_mul_of_nonpos_left hy2 hA
      exact le_trans (min_le_of_left_le (min_le_right _ _)) (le_trans h2 h1)
  · have h1 : A2 * y ≤ x * y := mul_le_mul_of_nonpos_right hx2 hy
    rcases le_total 0 A2 with hA | hA
    · have h2 : A2 * B1 ≤ A2 * y := mul_le_mul_of_nonneg_left hy1 hA
      exact le_trans (min_le_of_right_le (min_le_left _ _)) (le_trans h2 h1)
    · have h2 : A2 * B2 ≤ A2 * y := mul_le_mul_of_nonpos_left hy2 hA
      exact le_trans (min_le_of_right_le (min_le_right _ _)) (le_trans h2 h1)

/-- Soundness of the interval product. -/
theorem mulIV_encl {a b : IV} {x y : ℝ} (ha : a.encl x) (hb : b.encl y) :
    (mulIV a b).encl (x * y) := by
  obtain ⟨h1, h2⟩ := ha
  obtain ⟨h3, h4⟩ := hb
  constructor
  · show ((min (min (a.lo * b.lo) (a.lo * b.hi)) (min (a.hi * b.lo) (a.hi * b.hi)) : ℚ) : ℝ) ≤
      x * y
    push_cast
    exact real_min4_le_mul h1 h2 h3 h4
  · show x * y ≤
      ((max (max (a.lo * b.lo) (a.lo * b.hi)) (max (a.hi * b.lo) (a.hi * b.hi)) : ℚ) : ℝ)
    push_cast
    exact real_mul_le_max4 h1 h2 h3 h4

/-- Cubing is monotone on the reals. -/
theorem cube_le_cube {a b : ℝ} (h : a ≤ b) : a ^ 3 ≤ b ^ 3 := by
  nlinarith [sq_nonneg (a + b), sq_nonneg a, sq_nonneg b, sq_nonneg (a - b)]

/-- Soundness of the interval cube. -/
theorem cubeIV_encl {a : IV} {x : ℝ} (h : a.encl x) : (cubeIV a).encl (x ^ 3) := by
  obtain ⟨h1, h2⟩ := h
  constructor
  · show ((a.lo ^ 3 : ℚ) : ℝ) ≤ x ^ 3
    push_cast
    exact cube_le_cube h1
  · show x ^ 3 ≤ ((a.hi ^ 3 : ℚ) : ℝ)
    push_cast
    exact cube_le_cube h2

/-- Soundness of the interval square. -/
theorem sqIV_encl {a : IV} {x : ℝ} (h : a.encl x) : (sqIV a).encl (x ^ 2) := by
  obtain ⟨h1, h2⟩ := h
  rcases le_or_lt 0 a.lo with hl | hl
  · have hl' : (0 : ℝ) ≤ (a.lo : ℝ) := by exact_mod_cast hl
    have e : sqIV a = ⟨a.lo * a.lo, a.hi * a.hi⟩ := by unfold sqIV; rw [if_pos hl]
    rw [e]
    constructor
    · show ((a.lo * a.lo : ℚ) : ℝ) ≤ x ^ 2
      push_cast
      nlinarith
    · show x ^ 2 ≤ ((a.hi * a.hi : ℚ) : ℝ)
      push_cast
      nlinarith
  · rcases le_or_lt a.hi 0 with hh | hh
    · have hh' : (a.hi : ℝ) ≤ 0 := by exact_mod_cast hh
      have e : sqIV a = ⟨a.hi * a.hi, a.lo * a.lo⟩ := by
        unfold sqIV; rw [if_neg (not_le.mpr hl), if_pos hh]
      rw [e]
      constructor
      · show ((a.hi * a.hi : ℚ) : ℝ) ≤ x ^ 2
        push_cast
        nlinarith
      · show x ^ 2 ≤ ((a.lo * a.lo : ℚ) : ℝ)
        push_cast
        nlinarith
    · have e : sqIV a = ⟨0, max (a.lo * a.lo) (a.hi * a.hi)⟩ := by
        unfold sqIV; rw [if_neg (not_le.mpr hl), if_neg (not_le.mpr hh)]
      rw [e]
      constructor
      · show ((0 : ℚ) : ℝ) ≤ x ^ 2
        push_cast
        positivity
      · show x ^ 2 ≤ ((max (a.lo * a.lo) (a.hi * a.hi) : ℚ) : ℝ)
        push_cast
        rcases le_total 0 x with hx | hx
        · have : x ^ 2 ≤ (a.hi : ℝ) * a.hi := by nlinarith
          exact le_trans this (le_max_right _ _)
        · have : x ^ 2 ≤ (a.lo : ℝ) * a.lo := by nlinarith
          exact le_trans this (le_max_left _ _)

/-- Soundness of the interval absolute value. -/
theorem absIV_encl {a : IV} {x : ℝ} (h : a.encl x) : (absIV a).encl |x| := by
  obtain ⟨h1, h2⟩ := h
  rcases le_or_lt 0 a.lo with hl | hl
  · have hl' : (0 : ℝ) ≤ (a.lo : ℝ) := by exact_mod_cast hl
    have e : absIV a = a := by unfold absIV; rw [if_pos hl]
    rw [e, abs_of_nonneg (le_trans hl' h1)]
    exact ⟨h1, h2⟩
  · rcases le_or_lt a.hi 0 with hh | hh
    · have hh' : (a.hi : ℝ) ≤ 0 := by exact_mod_cast hh
      have e : absIV a = ⟨-a.hi, -a.lo⟩ := by
        unfold absIV; rw [if_neg (not_le.mpr hl), if_pos hh]
      rw [e, abs_of_nonpos (le_trans h2 hh')]
      constructor
      · show ((-a.hi : ℚ) : ℝ) ≤ -x
        push_cast
        linarith
      · show -x ≤ ((-a.lo : ℚ) : ℝ)
        push_cast
        linarith
    · have e : absIV a = ⟨0, max (-a.lo) a.hi⟩ := by
        unfold absIV; rw [if_neg (not_le.mpr hl), if_neg (not_le.mpr hh)]
      rw [e]
      constructor
      · show ((0 : ℚ) : ℝ) ≤ |x|
        push_cast
        positivity
      · show |x| ≤ ((max (-a.lo) a.hi : ℚ) : ℝ)
        push_cast
        rw [abs_le]
        constructor
        · have hm : -((a.lo : ℝ)) ≤ max (-(a.lo : ℝ)) (a.hi : ℝ) := le_max_left _ _
          linarith
        · exact le_trans h2 (le_max_right _ _)

/-- The rounding denominator is positive. -/
theorem rden_pos : (0 : ℚ) < rden := by unfold rden; positivity

/-- Rounding down does not increase the value. -/
theorem roundDown_le (q : ℚ) : roundDown q ≤ q := by
  unfold roundDown
  rw [div_le_iff₀ rden_pos]
  exact Int.floor_le _

/-- Rounding up does not decrease the value. -/
theorem le_roundUp (q : ℚ) : q ≤ roundUp q := by
  unfold roundUp
  rw [le_div_iff₀ rden_pos]
  exact Int.le_ceil _

/-- Soundness of outward rounding. -/
theorem roundIV_encl {a : IV} {x : ℝ} (h : a.encl x) : (roundIV a).encl x := by
  obtain ⟨h1, h2⟩ := h
  constructor
  · show ((roundDown a.lo : ℚ) : ℝ) ≤ x
    have : ((roundDown a.lo : ℚ) : ℝ) ≤ ((a.lo : ℚ) : ℝ) := by
      exact_mod_cast roundDown_le a.lo
    linarith
  · show x ≤ ((roundUp a.hi : ℚ) : ℝ)
    have : ((a.hi : ℚ) : ℝ) ≤ ((roundUp a.hi : ℚ) : ℝ) := by
      exact_mod_cast le_roundUp a.hi
    linarith

/-- Soundness of exact division by three. -/
theorem third_encl {a : IV} {x : ℝ} (h : a.encl x) : (third a).encl (x / 3) := by
  obtain ⟨h1, h2⟩ := h
  constructor
  · show ((a.lo / 3 : ℚ) : ℝ) ≤ x / 3
    push_cast
    linarith
  · show x / 3 ≤ ((a.hi / 3 : ℚ) : ℝ)
    push_cast
    linarith

/-- Enclosed reals are bounded in absolute value by the interval norm. -/
theorem abs_le_of_encl {a : IV} {x : ℝ} (h : a.encl x) :
    |x| ≤ ((max |a.lo| |a.hi| : ℚ) : ℝ) := by
  obtain ⟨h1, h2⟩ := h
  push_cast
  rw [abs_le]
  constructor
  · have hn : -|(a.lo : ℝ)| ≤ (a.lo : ℝ) := neg_abs_le _
    have hm : |(a.lo : ℝ)| ≤ max |(a.lo : ℝ)| |(a.hi : ℝ)| := le_max_left _ _
    linarith
  · have hs : (a.hi : ℝ) ≤ |(a.hi : ℝ)| := le_abs_self _
    have hm : |(a.hi : ℝ)| ≤ max |(a.lo : ℝ)| |(a.hi : ℝ)| := le_max_right _ _
    linarith

/-- The cubic Taylor polynomial of sin is monotone on [-1, 1]. -/
theorem cubicApprox_mono {a b : ℝ} (ha : |a| ≤ 1) (hb : |b| ≤ 1) (hab : a ≤ b) :
    a - a ^ 3 / 6 ≤ b - b ^ 3 / 6 := by
  obtain ⟨ha1, ha2⟩ := abs_le.mp ha
  obtain ⟨hb1, hb2⟩ := abs_le.mp hb
  have hsq : 0 ≤ 6 - (a ^ 2 + a * b + b ^ 2) := by nlinarith [sq_nonneg (a - b)]
  nlinarith [mul_nonneg (sub_nonneg.2 hab) hsq]

/-- Soundness of the small-angle sin enclosure. -/
theorem sinSmallIV_encl {a : IV} {x : ℝ} (h : a.encl x) :
    (sinSmallIV a).encl (Real.sin x) := by
  by_cases hm : 1 < max |a.lo| |a.hi|
  · have e : sinSmallIV a = ⟨-1, 1⟩ := by unfold sinSmallIV; rw [if_pos hm]
    rw [e]
    constructor
    · show ((-1 : ℚ) : ℝ) ≤ Real.sin x
      push_cast
      exact Real.neg_one_le_sin x
    · show Real.sin x ≤ ((1 : ℚ) : ℝ)
      push_cast
      exact Real.sin_le_one x
  · have hmq : max |a.lo| |a.hi| ≤ 1 := not_lt.mp hm
    have hmq' : ((max |a.lo| |a.hi| : ℚ) : ℝ) ≤ 1 := by exact_mod_cast hmq
    have hxabs : |x| ≤ ((max |a.lo| |a.hi| : ℚ) : ℝ) := abs_le_of_encl h
    have hx1 : |x| ≤ 1 := le_trans hxabs hmq'
    have hlo1 : |(a.lo : ℝ)| ≤ 1 := by
      have : |(a.lo : ℝ)| ≤ ((max |a.lo| |a.hi| : ℚ) : ℝ) := by
        push_cast
        exact le_max_left _ _
      linarith
    have hhi1 : |(a.hi : ℝ)| ≤ 1 := by
      have : |(a.hi : ℝ)| ≤ ((max |a.lo| |a.hi| : ℚ) : ℝ) := by
        push_cast
        exact le_max_right _ _
      linarith
    have hsb := Real.sin_bound hx1
    obtain ⟨hb1, hb2⟩ := abs_le.mp hsb
    have herr : |x| ^ 4 * (5 / 96) ≤ ((max |a.lo| |a.hi| ^ 4 * (5 / 96) : ℚ) : ℝ) := by
      push_cast
      have := pow_le_pow_left₀ (abs_nonneg x) hxabs 4
      push_cast at this
      nlinarith
    have e : sinSmallIV a =
        ⟨a.lo - a.lo ^ 3 / 6 - max |a.lo| |a.hi| ^ 4 * (5 / 96),
         a.hi - a.hi ^ 3 / 6 + max |a.lo| |a.hi| ^ 4 * (5 / 96)⟩ := by
      unfold sinSmallIV; rw [if_neg hm]
    rw [e]
    have hmono_lo : (a.lo : ℝ) - (a.lo : ℝ) ^ 3 / 6 ≤ x - x ^ 3 / 6 :=
      cubicApprox_mono hlo1 hx1 h.1
    have hmono_hi : x - x ^ 3 / 6 ≤ (a.hi : ℝ) - (a.hi : ℝ) ^ 3 / 6 :=
      cubicApprox_mono hx1 hhi1 h.2
    constructor
    · show ((a.lo - a.lo ^ 3 / 6 - max |a.lo| |a.hi| ^ 4 * (5 / 96) : ℚ) : ℝ) ≤ Real.sin x
      push_cast
      push_cast at herr
      nlinarith [abs_nonneg x, pow_le_pow_left₀ (abs_nonneg x) hx1 4]
    · show Real.sin x ≤ ((a.hi - a.hi ^ 3 / 6 + max |a.lo| |a.hi| ^ 4 * (5 / 96) : ℚ) : ℝ)
      push_cast
      push_cast at herr
      nlinarith [abs_nonneg x, pow_le_pow_left₀ (abs_nonneg x) hx1 4]

/-- Soundness of the small-angle cos enclosure. -/
theorem cosSmallIV_encl {a : IV} {x : ℝ} (h : a.encl x) :
    (cosSmallIV a).encl (Real.cos x) := by
  by_cases hm : 1 < max |a.lo| |a.hi|
  · have e : cosSmallIV a = ⟨-1, 1⟩ := by unfold cosSmallIV; rw [if_pos hm]
    rw [e]
    constructor
    · show ((-1 : ℚ) : ℝ) ≤ Real.cos x
      push_cast
      exact Real.neg_one_le_cos x
    · show Real.cos x ≤ ((1 : ℚ) : ℝ)
      push_cast
      exact Real.cos_le_one x
  · have hmq : max |a.lo| |a.hi| ≤ 1 := not_lt.mp hm
    have hmq' : ((max |a.lo| |a.hi| : ℚ) : ℝ) ≤ 1 := by exact_mod_cast hmq
    have hxabs : |x| ≤ ((max |a.lo| |a.hi| : ℚ) : ℝ) := abs_le_of_encl h
    have hx1 : |x| ≤ 1 := le_trans hxabs hmq'
    have hcb := Real.cos_bound hx1
    obtain ⟨hb1, hb2⟩ := abs_le.mp hcb
    obtain ⟨hs1, hs2⟩ := sqIV_encl h
    have e : cosSmallIV a =
        ⟨1 - (sqIV a).hi / 2 - max |a.lo| |a.hi| ^ 4 * (5 / 96),
         1 - (sqIV a).lo / 2 + max |a.lo| |a.hi| ^ 4 * (5 / 96)⟩ := by
      unfold cosSmallIV; rw [if_neg hm]
    rw [e]
    have herr : |x| ^ 4 * (5 / 96) ≤ ((max |a.lo| |a.hi| : ℚ) : ℝ) ^ 4 * (5 / 96) := by
      have := pow_le_pow_left₀ (abs_nonneg x) hxabs 4
      nlinarith
    constructor
    · show ((1 - (sqIV a).hi / 2 - max |a.lo| |a.hi| ^ 4 * (5 / 96) : ℚ) : ℝ) ≤ Real.cos x
      push_cast
      push_cast at herr
      nlinarith
    · show Real.cos x ≤ ((1 - (sqIV a).lo / 2 + max |a.lo| |a.hi| ^ 4 * (5 / 96) : ℚ) : ℝ)
      push_cast
      push_cast at herr
      nlinarith

/-- Soundness of the sin triple-angle step. -/
theorem tripleSin_encl {s : IV} {v : ℝ} (h : s.encl v) :
    (tripleSin s).encl (3 * v - 4 * v ^ 3) := by
  have h3 := scaleIV_encl 3 h
  have h4 := scaleIV_encl 4 (cubeIV_encl h)
  have hs := roundIV_encl (subIV_encl h3 h4)
  refine encl_congr hs ?_
  push_cast
  ring

/-- Soundness of the cos triple-angle step. -/
theorem tripleCos_encl {c : IV} {v : ℝ} (h : c.encl v) :
    (tripleCos c).encl (4 * v ^ 3 - 3 * v) := by
  have h3 := scaleIV_encl 3 h
  have h4 := scaleIV_encl 4 (cubeIV_encl h)
  have hs := roundIV_encl (subIV_encl h4 h3)
  refine encl_congr hs ?_
  push_cast
  ring

/-- Soundness of the joint sin and cos enclosure at any depth. -/
theorem sinCosIV_encl (n : ℕ) {a : IV} {x : ℝ} (h : a.encl x) :
    (sinCosIV n a).1.encl (Real.sin x) ∧ (sinCosIV n a).2.encl (Real.cos x) := by
  induction n generalizing a x with
  | zero => exact ⟨sinSmallIV_encl h, cosSmallIV_encl h⟩
  | succ n ih =>
    obtain ⟨hs, hc⟩ := ih (third_encl h)
    have e3 : (3 : ℝ) * (x / 3) = x := by ring
    constructor
    · refine encl_congr (tripleSin_encl hs) ?_
      rw [← Real.sin_three_mul, e3]
    · refine encl_congr (tripleCos_encl hc) ?_
      rw [← Real.cos_three_mul, e3]

/-- Soundness of the working-depth sin enclosure. -/
theorem sinIV_encl {a : IV} {x : ℝ} (h : a.encl x) : (sinIV a).encl (Real.sin x) :=
  (sinCosIV_encl 12 h).1

/-- Soundness of the working-depth cos enclosure. -/
theorem cosIV_encl {a : IV} {x : ℝ} (h : a.encl x) : (cosIV a).encl (Real.cos x) :=
  (sinCosIV_encl 12 h).2

/-- Soundness of the interval fract. -/
theorem fractIV_encl {a : IV} {x : ℝ} (h : a.encl x) : (fractIV a).encl (fractR x) := by
  obtain ⟨h1, h2⟩ := h
  by_cases hc : a.hi < (⌊a.lo⌋ : ℚ) + 1
  · have e : fractIV a = ⟨a.lo - ⌊a.lo⌋, a.hi - ⌊a.lo⌋⟩ := by unfold fractIV; rw [if_pos hc]
    rw [e]
    have hfl : ⌊x⌋ = ⌊a.lo⌋ := by
      rw [Int.floor_eq_iff]
      constructor
      · have hq : ((⌊a.lo⌋ : ℚ) : ℝ) ≤ ((a.lo : ℚ) : ℝ) := by
          exact_mod_cast Int.floor_le a.lo
        push_cast at hq ⊢
        linarith
      · have hq : ((a.hi : ℚ) : ℝ) < (((⌊a.lo⌋ : ℚ) + 1 : ℚ) : ℝ) := by exact_mod_cast hc
        push_cast at hq ⊢
        linarith
    unfold fractR
    rw [hfl]
    constructor
    · show ((a.lo - ⌊a.lo⌋ : ℚ) : ℝ) ≤ x - (⌊a.lo⌋ : ℝ)
      push_cast
      linarith
    · show x - (⌊a.lo⌋ : ℝ) ≤ ((a.hi - ⌊a.lo⌋ : ℚ) : ℝ)
      push_cast
      linarith
  · have e : fractIV a = ⟨0, 1⟩ := by unfold fractIV; rw [if_neg hc]
    rw [e]
    obtain ⟨hf1, hf2⟩ := fractR_mem x
    constructor
    · show ((0 : ℚ) : ℝ) ≤ fractR x
      push_cast
      exact hf1
    · show fractR x ≤ ((1 : ℚ) : ℝ)
      push_cast
      exact hf2

/-- The shader smoothstep is monotone. -/
theorem smoothstepR_mono {a b : ℝ} (hab : a ≤ b) :
    smoothstepR 0 0.1 a ≤ smoothstepR 0 0.1 b := by
  simp only [smoothstepR, clampR]
  set ta := min (max ((a - 0) / (0.1 - 0)) 0) 1 with hta
  set tb := min (max ((b - 0) / (0.1 - 0)) 0) 1 with htb
  have h1 : ta ≤ tb := by
    apply min_le_min _ le_rfl
    apply max_le_max _ le_rfl
    have h10 : (0 : ℝ) < 0.1 - 0 := by norm_num
    exact (div_le_div_iff_of_pos_right h10).mpr (by linarith)
  have ta0 : 0 ≤ ta := le_min (le_max_right _ 0) zero_le_one
  have tb0 : 0 ≤ tb := le_min (le_max_right _ 0) zero_le_one
  have ta1 : ta ≤ 1 := min_le_right _ _
  have tb1 : tb ≤ 1 := min_le_right _ _
  have hkey : 0 ≤ 3 * (ta + tb) - 2 * (ta ^ 2 + ta * tb + tb ^ 2) := by
    nlinarith [mul_nonneg ta0 (sub_nonneg.2 ta1), mul_nonneg tb0 (sub_nonneg.2 tb1),
      sq_nonneg (ta - tb)]
  nlinarith [mul_nonneg (sub_nonneg.2 h1) hkey]

/-- The rational smoothstep evaluation agrees with the real one. -/
theorem ssQ_cast (q : ℚ) : ((ssQ q : ℚ) : ℝ) = smoothstepR 0 0.1 (q : ℝ) := by
  unfold ssQ smoothstepR clampR
  push_cast
  norm_num

/-- Soundness of the interval smoothstep. -/
theorem smoothstepIV_encl {a : IV} {x : ℝ} (h : a.encl x) :
    (smoothstepIV a).encl (smoothstepR 0 0.1 x) := by
  obtain ⟨h1, h2⟩ := h
  constructor
  · show ((ssQ a.lo : ℚ) : ℝ) ≤ smoothstepR 0 0.1 x
    rw [ssQ_cast]
    exact smoothstepR_mono h1
  · show smoothstepR 0 0.1 x ≤ ((ssQ a.hi : ℚ) : ℝ)
    rw [ssQ_cast]
    exact smoothstepR_mono h2

/-- The rational lower bound of a square root is sound. -/
theorem sqrtLB_le {q : ℚ} (hq : 0 < q) : ((sqrtLB q : ℚ) : ℝ) ≤ Real.sqrt (q : ℝ) := by
  unfold sqrtLB
  by_cases hm : 0 < sqrtApprox q
  · rw [if_pos hm]
    have hm' : (0 : ℝ) < ((sqrtApprox q : ℚ) : ℝ) := by exact_mod_cast hm
    have hq' : (0 : ℝ) < ((q : ℚ) : ℝ) := by exact_mod_cast hq
    have hmin0 : 0 < min ((sqrtApprox q : ℚ) : ℝ) (((q : ℚ) : ℝ) / ((sqrtApprox q : ℚ) : ℝ)) :=
      lt_min hm' (div_pos hq' hm')
    have hsq : (min ((sqrtApprox q : ℚ) : ℝ) (((q : ℚ) : ℝ) / ((sqrtApprox q : ℚ) : ℝ))) ^ 2 ≤
        ((q : ℚ) : ℝ) := by
      have hle1 := min_le_left ((sqrtApprox q : ℚ) : ℝ) (((q : ℚ) : ℝ) / ((sqrtApprox q : ℚ) : ℝ))
      have hle2 := min_le_right ((sqrtApprox q : ℚ) : ℝ) (((q : ℚ) : ℝ) / ((sqrtApprox q : ℚ) : ℝ))
      calc (min ((sqrtApprox q : ℚ) : ℝ) (((q : ℚ) : ℝ) / ((sqrtApprox q : ℚ) : ℝ))) ^ 2
          = min ((sqrtApprox q : ℚ) : ℝ) (((q : ℚ) : ℝ) / ((sqrtApprox q : ℚ) : ℝ)) *
            min ((sqrtApprox q : ℚ) : ℝ) (((q : ℚ) : ℝ) / ((sqrtApprox q : ℚ) : ℝ)) := sq _
        _ ≤ ((sqrtApprox q : ℚ) : ℝ) * (((q : ℚ) : ℝ) / ((sqrtApprox q : ℚ) : ℝ)) :=
            mul_le_mul hle1 hle2 hmin0.le hm'.le
        _ = ((q : ℚ) : ℝ) := by field_simp
    have hfin := (Real.le_sqrt hmin0.le hq'.le).mpr hsq
    rw [show ((min (sqrtApprox q) (q / sqrtApprox q) : ℚ) : ℝ) =
      min ((sqrtApprox q : ℚ) : ℝ) (((q : ℚ) : ℝ) / ((sqrtApprox q : ℚ) : ℝ)) by push_cast; rfl]
    exact hfin
  · rw [if_neg hm]
    push_cast
    exact Real.sqrt_nonneg _

/-- The rational upper bound of a square root is sound. -/
theorem le_sqrtUB {q : ℚ} (hq : 0 < q) : Real.sqrt (q : ℝ) ≤ ((sqrtUB q : ℚ) : ℝ) := by
  unfold sqrtUB
  by_cases hm : 0 < sqrtApprox q
  · rw [if_pos hm]
    have hm' : (0 : ℝ) < ((sqrtApprox q : ℚ) : ℝ) := by exact_mod_cast hm
    have hq' : (0 : ℝ) < ((q : ℚ) : ℝ) := by exact_mod_cast hq
    have hmax0 : 0 ≤ max ((sqrtApprox q : ℚ) : ℝ) (((q : ℚ) : ℝ) / ((sqrtApprox q : ℚ) : ℝ)) :=
      le_trans hm'.le (le_max_left _ _)
    have hsq : ((q : ℚ) : ℝ) ≤
        (max ((sqrtApprox q : ℚ) : ℝ) (((q : ℚ) : ℝ) / ((sqrtApprox q : ℚ) : ℝ))) ^ 2 := by
      have hle1 := le_max_left ((sqrtApprox q : ℚ) : ℝ) (((q : ℚ) : ℝ) / ((sqrtApprox q : ℚ) : ℝ))
      have hle2 := le_max_right ((sqrtApprox q : ℚ) : ℝ) (((q : ℚ) : ℝ) / ((sqrtApprox q : ℚ) : ℝ))
      calc ((q : ℚ) : ℝ)
          = ((sqrtApprox q : ℚ) : ℝ) * (((q : ℚ) : ℝ) / ((sqrtApprox q : ℚ) : ℝ)) := by field_simp
        _ ≤ (max ((sqrtApprox q : ℚ) : ℝ) (((q : ℚ) : ℝ) / ((sqrtApprox q : ℚ) : ℝ))) *
            (max ((sqrtApprox q : ℚ) : ℝ) (((q : ℚ) : ℝ) / ((sqrtApprox q : ℚ) : ℝ))) :=
            mul_le_mul hle1 hle2 (div_pos hq' hm').le hmax0
        _ = (max ((sqrtApprox q : ℚ) : ℝ) (((q : ℚ) : ℝ) / ((sqrtApprox q : ℚ) : ℝ))) ^ 2 :=
            (sq _).symm
    have hfin := (Real.sqrt_le_left hmax0).mpr hsq
    rw [show ((max (sqrtApprox q) (q / sqrtApprox q) : ℚ) : ℝ) =
      max ((sqrtApprox q : ℚ) : ℝ) (((q : ℚ) : ℝ) / ((sqrtApprox q : ℚ) : ℝ)) by push_cast; rfl]
    exact hfin
  · rw [if_neg hm]
    have hq' : (0 : ℝ) < ((q : ℚ) : ℝ) := by exact_mod_cast hq
    have h1q : (0 : ℝ) ≤ ((1 + q : ℚ) : ℝ) := by push_cast; linarith
    have hstep : ((q : ℚ) : ℝ) ≤ ((1 + q : ℚ) : ℝ) ^ 2 := by push_cast; nlinarith
    exact (Real.sqrt_le_left h1q).mpr hstep

/-- Soundness of the interval square root. -/
theorem sqrtIV_encl {a : IV} {x : ℝ} (h : a.encl x) : (sqrtIV a).encl (Real.sqrt x) := by
  obtain ⟨h1, h2⟩ := h
  constructor
  · show ((if 0 < a.lo then sqrtLB a.lo else 0 : ℚ) : ℝ) ≤ Real.sqrt x
    by_cases hl : 0 < a.lo
    · rw [if_pos hl]
      exact le_trans (sqrtLB_le hl) (Real.sqrt_le_sqrt h1)
    · rw [if_neg hl]
      push_cast
      exact Real.sqrt_nonneg x
  · show Real.sqrt x ≤ ((if 0 < a.hi then sqrtUB a.hi else 0 : ℚ) : ℝ)
    by_cases hh : 0 < a.hi
    · rw [if_pos hh]
      exact le_trans (Real.sqrt_le_sqrt h2) (le_sqrtUB hh)
    · rw [if_neg hh]
      have hh' : (a.hi : ℝ) ≤ 0 := by exact_mod_cast not_lt.mp hh
      have hz : Real.sqrt x = 0 := Real.sqrt_eq_zero'.mpr (by linarith)
      rw [hz]
      push_cast
      exact le_refl 0

end IntervalSoundness

/-!
Interval evaluation of the shader itself, mirroring the real model
definition by definition.
-/

section ShaderIV

/-- Interval rotation and scaling step of a layer, at exact rational
inputs. -/
def rotSclIV (tq iq x y : ℚ) : IV × IV :=
  (scaleIV (1 + iq * (3 / 10))
      (subIV (scaleIV x (cosIV (ofRat (tq * (1 / 10) * (iq + 1)))))
        (scaleIV y (sinIV (ofRat (tq * (1 / 10) * (iq + 1)))))),
   scaleIV (1 + iq * (3 / 10))
      (addIV (scaleIV x (sinIV (ofRat (tq * (1 / 10) * (iq + 1)))))
        (scaleIV y (cosIV (ofRat (tq * (1 / 10) * (iq + 1)))))))

/-- Interval x wave update. -/
def wavePxIV (tq iq : ℚ) (px py : IV) : IV :=
  addIV px (scaleIV (3 / 10) (sinIV (addIV (scaleIV 3 py) (ofRat (tq * (1 + iq * (1 / 2)))))))

/-- Interval y wave update, reading the already-updated x. -/
def wavePyIV (tq iq : ℚ) (px2 py : IV) : IV :=
  addIV py
    (scaleIV (2 / 10) (cosIV (addIV (scaleIV 2 px2) (ofRat (tq * (12 / 10 + iq * (3 / 10)))))))

/-- Interval pre-tiling layer point. -/
def layerPointIV (tq iq x y : ℚ) : IV × IV :=
  let p := rotSclIV tq iq x y
  let px2 := wavePxIV tq iq p.1 p.2
  (px2, wavePyIV tq iq px2 p.2)

/-- Interval tiling step. -/
def tileIV (a : IV) : IV := subIV (fractIV (scaleIV (3 / 2) a)) (ofRat (1 / 2))

/-- Interval signed distance to the layer circle. -/
def sdCircleIV (r : ℚ) (a b : IV) : IV :=
  subIV (sqrtIV (addIV (sqIV a) (sqIV b))) (ofRat r)

/-- Interval ring banding transform. -/
def ringDIV (tq : ℚ) (d : IV) : IV :=
  subIV (ofRat 1)
    (smoothstepIV (scaleIV (1 / 8) (absIV (sinIV (addIV (scaleIV 8 d) (ofRat (tq * 2)))))))

/-- Interval layer scalar d. -/
def layerDIV (tq iq x y : ℚ) : IV :=
  ringDIV tq
    (sdCircleIV (2 / 10 - iq * (5 / 100)) (tileIV (layerPointIV tq iq x y).1)
      (tileIV (layerPointIV tq iq x y).2))

/-- Interval hash noise. -/
def noiseIV (x y : ℚ) : IV :=
  fractIV
    (scaleIV (437585453 / 10000)
      (sinIV (ofRat (x * (129898 / 10000) + y * (78233 / 1000)))))

/-- Interval vignette multiplier. -/
def facIV (x y : ℚ) : IV :=
  addIV (ofRat (7 / 10))
    (scaleIV (3 / 10)
      (subIV (ofRat 1)
        (sqrtIV (addIV (sqIV (ofRat (x * (1 / 2)))) (sqIV (ofRat (y * (1 / 2))))))))

/-- Interval background channel. -/
def bgIV (base : ℚ) (noise : IV) : IV := addIV (ofRat base) (scaleIV (2 / 100) noise)

/-- Interval accumulated layer color channel. -/
def colIV (c0 c1 c2 : ℚ) (d0 d1 d2 : IV) : IV :=
  addIV (addIV (addIV (ofRat 0) (scaleIV c0 d0)) (scaleIV c1 d1)) (scaleIV c2 d2)

/-- Interval blend and vignette of one output channel. -/
def chanIV (bg col fac : IV) : IV :=
  mulIV fac (addIV (scaleIV (2 / 10) bg) (scaleIV (8 / 10) (addIV bg col)))

/-- Interval evaluation of the full shader at exact rational inputs. -/
def shadeIV (x y tq : ℚ) : IV × IV × IV :=
  let time := tq * (3 / 10)
  let d0 := layerDIV time 0 x y
  let d1 := layerDIV time 1 x y
  let d2 := layerDIV time 2 x y
  let noise := noiseIV x y
  let fac := facIV x y
  (chanIV (bgIV (8 / 100) noise)
      (colIV ((6 / 10 - 0 * (1 / 10)) * (15 / 100)) ((6 / 10 - 1 * (1 / 10)) * (25 / 100))
        ((6 / 10 - 2 * (1 / 10)) * (20 / 100)) d0 d1 d2) fac,
   chanIV (bgIV (12 / 100) noise)
      (colIV ((6 / 10 - 0 * (1 / 10)) * (25 / 100)) ((6 / 10 - 1 * (1 / 10)) * (15 / 100))
        ((6 / 10 - 2 * (1 / 10)) * (30 / 100)) d0 d1 d2) fac,
   chanIV (bgIV (18 / 100) noise)
      (colIV ((6 / 10 - 0 * (1 / 10)) * (40 / 100)) ((6 / 10 - 1 * (1 / 10)) * (35 / 100))
        ((6 / 10 - 2 * (1 / 10)) * (25 / 100)) d0 d1 d2) fac)

end ShaderIV

section ShaderIVSoundness

/-- Soundness of the interval rotation and scaling step. -/
theorem rotSclIV_encl (tq iq x y : ℚ) :
    (rotSclIV tq iq x y).1.encl
      (rotX ((tq : ℝ) * 0.1 * ((iq : ℝ) + 1)) (x : ℝ) (y : ℝ) * layerScale (iq : ℝ)) ∧
    (rotSclIV tq iq x y).2.encl
      (rotY ((tq : ℝ) * 0.1 * ((iq : ℝ) + 1)) (x : ℝ) (y : ℝ) * layerScale (iq : ℝ)) := by
  have ha : (ofRat (tq * (1 / 10) * (iq + 1))).encl ((tq : ℝ) * 0.1 * ((iq : ℝ) + 1)) :=
    encl_congr (ofRat_encl _) (by push_cast; norm_num)
  have hsin := sinIV_encl ha
  have hcos := cosIV_encl ha
  constructor
  · refine encl_congr
      (scaleIV_encl _ (subIV_encl (scaleIV_encl x hcos) (scaleIV_encl y hsin))) ?_
    unfold rotX layerScale
    push_cast
    ring_nf
  · refine encl_congr
      (scaleIV_encl _ (addIV_encl (scaleIV_encl x hsin) (scaleIV_encl y hcos))) ?_
    unfold rotY layerScale
    push_cast
    ring_nf

/-- Soundness of the interval x wave update. -/
theorem wavePxIV_encl (tq iq : ℚ) {px py : IV} {PX PY : ℝ}
    (h1 : px.encl PX) (h2 : py.encl PY) :
    (wavePxIV tq iq px py).encl (waveX (tq : ℝ) (iq : ℝ) PX PY) := by
  have harg : (addIV (scaleIV 3 py) (ofRat (tq * (1 + iq * (1 / 2))))).encl
      (PY * 3 + (tq : ℝ) * (1 + (iq : ℝ) * 0.5)) :=
    encl_congr (addIV_encl (scaleIV_encl 3 h2) (ofRat_encl _)) (by push_cast; ring_nf)
  have hs := sinIV_encl harg
  unfold waveX wavePxIV
  exact encl_congr (addIV_encl h1 (scaleIV_encl (3 / 10) hs)) (by push_cast; ring_nf)

/-- Soundness of the interval y wave update. -/
theorem wavePyIV_encl (tq iq : ℚ) {px2 py : IV} {PX2 PY : ℝ}
    (h1 : px2.encl PX2) (h2 : py.encl PY) :
    (wavePyIV tq iq px2 py).encl (waveY (tq : ℝ) (iq : ℝ) PX2 PY) := by
  have harg : (addIV (scaleIV 2 px2) (ofRat (tq * (12 / 10 + iq * (3 / 10))))).encl
      (PX2 * 2 + (tq : ℝ) * (1.2 + (iq : ℝ) * 0.3)) :=
    encl_congr (addIV_encl (scaleIV_encl 2 h1) (ofRat_encl _)) (by push_cast; ring_nf)
  have hc := cosIV_encl harg
  unfold waveY wavePyIV
  exact encl_congr (addIV_encl h2 (scaleIV_encl (2 / 10) hc)) (by push_cast; ring_nf)

/-- Soundness of the interval pre-tiling layer point. -/
theorem layerPointIV_encl (tq iq x y : ℚ) :
    (layerPointIV tq iq x y).1.encl ((layerPoint (tq : ℝ) (iq : ℝ) (x : ℝ) (y : ℝ)).1) ∧
    (layerPointIV tq iq x y).2.encl ((layerPoint (tq : ℝ) (iq : ℝ) (x : ℝ) (y : ℝ)).2) := by
  obtain ⟨h1, h2⟩ := rotSclIV_encl tq iq x y
  have hx2 := wavePxIV_encl tq iq h1 h2
  have hy2 := wavePyIV_encl tq iq hx2 h2
  exact ⟨hx2, hy2⟩

/-- Soundness of the interval tiling step. -/
theorem tileIV_encl {a : IV} {v : ℝ} (h : a.encl v) : (tileIV a).encl (tile v) := by
  have h1 : (scaleIV (3 / 2) a).encl (v * 1.5) :=
    encl_congr (scaleIV_encl _ h) (by push_cast; ring_nf)
  have h2 := fractIV_encl h1
  unfold tile
  exact encl_congr (subIV_encl h2 (ofRat_encl (1 / 2))) (by push_cast; norm_num)

/-- Soundness of the interval signed distance to a circle. -/
theorem sdCircleIV_encl (r : ℚ) {a b : IV} {tx ty : ℝ}
    (ha : a.encl tx) (hb : b.encl ty) :
    (sdCircleIV r a b).encl (sdCircle tx ty (r : ℝ)) := by
  have h1 := sqrtIV_encl (addIV_encl (sqIV_encl ha) (sqIV_encl hb))
  unfold sdCircle length2
  refine encl_congr (subIV_encl h1 (ofRat_encl r)) ?_
  have h3 : tx ^ 2 + ty ^ 2 = tx * tx + ty * ty := by ring
  rw [h3]

/-- Soundness of the interval ring banding transform. -/
theorem ringDIV_encl (tq : ℚ) {d : IV} {v : ℝ} (h : d.encl v) :
    (ringDIV tq d).encl (ringD (tq : ℝ) v) := by
  have h1 : (addIV (scaleIV 8 d) (ofRat (tq * 2))).encl (v * 8 + (tq : ℝ) * 2) :=
    encl_congr (addIV_encl (scaleIV_encl 8 h) (ofRat_encl _)) (by push_cast; ring_nf)
  have h2 := absIV_encl (sinIV_encl h1)
  have h3 : (scaleIV (1 / 8) (absIV (sinIV (addIV (scaleIV 8 d) (ofRat (tq * 2)))))).encl
      (|Real.sin (v * 8 + (tq : ℝ) * 2)| / 8) :=
    encl_congr (scaleIV_encl _ h2) (by push_cast; ring_nf)
  have h4 := smoothstepIV_encl h3
  unfold ringD
  exact encl_congr (subIV_encl (ofRat_encl 1) h4) (by push_cast; ring_nf)

/-- Soundness of the interval layer scalar. -/
theorem layerDIV_encl (tq iq x y : ℚ) :
    (layerDIV tq iq x y).encl (layerD (tq : ℝ) (iq : ℝ) (x : ℝ) (y : ℝ)) := by
  obtain ⟨h1, h2⟩ := layerPointIV_encl tq iq x y
  have hsd := sdCircleIV_encl (2 / 10 - iq * (5 / 100)) (tileIV_encl h1) (tileIV_encl h2)
  have hr : ((2 / 10 - iq * (5 / 100) : ℚ) : ℝ) = layerRadius (iq : ℝ) := by
    unfold layerRadius
    push_cast
    norm_num
  rw [hr] at hsd
  exact ringDIV_encl tq hsd

/-- Soundness of the interval hash noise. -/
theorem noiseIV_encl (x y : ℚ) : (noiseIV x y).encl (noiseHash (x : ℝ) (y : ℝ)) := by
  have h1 : (ofRat (x * (129898 / 10000) + y * (78233 / 1000))).encl
      ((x : ℝ) * 12.9898 + (y : ℝ) * 78.233) :=
    encl_congr (ofRat_encl _) (by push_cast; norm_num)
  have h2 : (scaleIV (437585453 / 10000)
      (sinIV (ofRat (x * (129898 / 10000) + y * (78233 / 1000))))).encl
      (Real.sin ((x : ℝ) * 12.9898 + (y : ℝ) * 78.233) * 43758.5453) :=
    encl_congr (scaleIV_encl _ (sinIV_encl h1)) (by push_cast; ring_nf)
  unfold noiseHash
  exact fractIV_encl h2

/-- Soundness of the interval vignette multiplier. -/
theorem facIV_encl (x y : ℚ) : (facIV x y).encl (vignetteFactor (x : ℝ) (y : ℝ)) := by
  have h1 := sqrtIV_encl
    (addIV_encl (sqIV_encl (ofRat_encl (x * (1 / 2)))) (sqIV_encl (ofRat_encl (y * (1 / 2)))))
  have he : Real.sqrt (((x * (1 / 2) : ℚ) : ℝ) ^ 2 + ((y * (1 / 2) : ℚ) : ℝ) ^ 2) =
      Real.sqrt ((x : ℝ) * 0.5 * ((x : ℝ) * 0.5) + (y : ℝ) * 0.5 * ((y : ℝ) * 0.5)) := by
    congr 1
    push_cast
    ring_nf
  rw [he] at h1
  have h2 := addIV_encl (ofRat_encl (7 / 10))
    (scaleIV_encl (3 / 10) (subIV_encl (ofRat_encl 1) h1))
  unfold vignetteFactor length2
  exact encl_congr h2 (by push_cast; ring_nf)

/-- Soundness of the interval background channel. -/
theorem bgIV_encl (base : ℚ) {noise : IV} {N : ℝ} (hn : noise.encl N) :
    (bgIV base noise).encl ((base : ℝ) + N * 0.02) := by
  unfold bgIV
  exact encl_congr (addIV_encl (ofRat_encl base) (scaleIV_encl (2 / 100) hn))
    (by push_cast; ring_nf)

/-- Soundness of the interval accumulated color channel. -/
theorem colIV_encl (c0 c1 c2 : ℚ) {d0 d1 d2 : IV} {D0 D1 D2 : ℝ}
    (h0 : d0.encl D0) (h1 : d1.encl D1) (h2 : d2.encl D2) :
    (colIV c0 c1 c2 d0 d1 d2).encl
      (0 + D0 * (c0 : ℝ) + D1 * (c1 : ℝ) + D2 * (c2 : ℝ)) := by
  unfold colIV
  refine encl_congr (addIV_encl (addIV_encl (addIV_encl (ofRat_encl 0) (scaleIV_encl c0 h0))
    (scaleIV_encl c1 h1)) (scaleIV_encl c2 h2)) ?_
  push_cast
  ring

/-- Soundness of the interval channel assembly. -/
theorem chanIV_encl {bg col fac : IV} {B C F : ℝ}
    (hb : bg.encl B) (hc : col.encl C) (hf : fac.encl F) :
    (chanIV bg col fac).encl (F * (B * (1 - 0.8) + (B + C) * 0.8)) := by
  unfold chanIV
  have h1 := addIV_encl (scaleIV_encl (2 / 10) hb) (scaleIV_encl (8 / 10) (addIV_encl hb hc))
  refine encl_congr (mulIV_encl hf h1) ?_
  push_cast
  ring_nf

/-- Folding of the layer scalar through the layer point. -/
theorem layerD_fold (time i x y : ℝ) :
    layerDFromPre time i (layerPoint time i x y).1 (layerPoint time i x y).2 =
      layerD time i x y := rfl

/-- The first output channel of the shader, written as one scalar formula. -/
theorem shade_x_eq (x y t : ℝ) : (shade x y t).x =
    vignetteFactor x y * ((0.08 + noiseHash x y * 0.02) * (1 - 0.8) +
      (0.08 + noiseHash x y * 0.02 +
        (0 + layerD (t * 0.3) 0 x y * ((0.6 - 0 * 0.1) * 0.15) +
          layerD (t * 0.3) 1 x y * ((0.6 - 1 * 0.1) * 0.25) +
          layerD (t * 0.3) 2 x y * ((0.6 - 2 * 0.1) * 0.2))) * 0.8) := by
  simp only [shade, colSum, layerContrib, layerContribFromPre, layerColor_zero, layerColor_one,
    layerColor_two, v3smul, v3add, mixV3, mixR, backgroundAt, v3mk_x, v3mk_y, v3mk_z,
    layerD_fold]
  ring

/-- The second output channel of the shader, written as one scalar formula. -/
theorem shade_y_eq (x y t : ℝ) : (shade x y t).y =
    vignetteFactor x y * ((0.12 + noiseHash x y * 0.02) * (1 - 0.8) +
      (0.12 + noiseHash x y * 0.02 +
        (0 + layerD (t * 0.3) 0 x y * ((0.6 - 0 * 0.1) * 0.25) +
          layerD (t * 0.3) 1 x y * ((0.6 - 1 * 0.1) * 0.15) +
          layerD (t * 0.3) 2 x y * ((0.6 - 2 * 0.1) * 0.3))) * 0.8) := by
  simp only [shade, colSum, layerContrib, layerContribFromPre, layerColor_zero, layerColor_one,
    layerColor_two, v3smul, v3add, mixV3, mixR, backgroundAt, v3mk_x, v3mk_y, v3mk_z,
    layerD_fold]
  ring

/-- The third output channel of the shader, written as one scalar formula. -/
theorem shade_z_eq (x y t : ℝ) : (shade x y t).z =
    vignetteFactor x y * ((0.18 + noiseHash x y * 0.02) * (1 - 0.8) +
      (0.18 + noiseHash x y * 0.02 +
        (0 + layerD (t * 0.3) 0 x y * ((0.6 - 0 * 0.1) * 0.4) +
          layerD (t * 0.3) 1 x y * ((0.6 - 1 * 0.1) * 0.35) +
          layerD (t * 0.3) 2 x y * ((0.6 - 2 * 0.1) * 0.25))) * 0.8) := by
  simp only [shade, colSum, layerContrib, layerContribFromPre, layerColor_zero, layerColor_one,
    layerColor_two, v3smul, v3add, mixV3, mixR, backgroundAt, v3mk_x, v3mk_y, v3mk_z,
    layerD_fold]
  ring

/-- The interval shader evaluation encloses the real shader output,
channel by channel, at every exact rational input. -/
theorem shadeIV_encl (x y tq : ℚ) :
    (shadeIV x y tq).1.encl ((shade (x : ℝ) (y : ℝ) (tq : ℝ)).x) ∧
    (shadeIV x y tq).2.1.encl ((shade (x : ℝ) (y : ℝ) (tq : ℝ)).y) ∧
    (shadeIV x y tq).2.2.encl ((shade (x : ℝ) (y : ℝ) (tq : ℝ)).z) := by
  have h0 := layerDIV_encl (tq * (3 / 10)) 0 x y
  have h1 := layerDIV_encl (tq * (3 / 10)) 1 x y
  have h2 := layerDIV_encl (tq * (3 / 10)) 2 x y
  push_cast at h0 h1 h2
  have et : ((tq : ℝ) * (3 / 10)) = (tq : ℝ) * 0.3 := by norm_num
  rw [et] at h0 h1 h2
  have hn := noiseIV_encl x y
  have hf := facIV_encl x y
  refine ⟨?_, ?_, ?_⟩
  · have h := chanIV_encl (bgIV_encl (8 / 100) hn)
      (colIV_encl ((6 / 10 - 0 * (1 / 10)) * (15 / 100)) ((6 / 10 - 1 * (1 / 10)) * (25 / 100))
        ((6 / 10 - 2 * (1 / 10)) * (20 / 100)) h0 h1 h2) hf
    refine encl_congr h ?_
    rw [shade_x_eq]
    push_cast
    ring_nf
  · have h := chanIV_encl (bgIV_encl (12 / 100) hn)
      (colIV_encl ((6 / 10 - 0 * (1 / 10)) * (25 / 100)) ((6 / 10 - 1 * (1 / 10)) * (15 / 100))
        ((6 / 10 - 2 * (1 / 10)) * (30 / 100)) h0 h1 h2) hf
    refine encl_congr h ?_
    rw [shade_y_eq]
    push_cast
    ring_nf
  · have h := chanIV_encl (bgIV_encl (18 / 100) hn)
      (colIV_encl ((6 / 10 - 0 * (1 / 10)) * (40 / 100)) ((6 / 10 - 1 * (1 / 10)) * (35 / 100))
        ((6 / 10 - 2 * (1 / 10)) * (25 / 100)) h0 h1 h2) hf
    refine encl_congr h ?_
    rw [shade_z_eq]
    push_cast
    ring_nf

end ShaderIVSoundness

section NumericClaims

attribute [local semireducible] Rat.add Rat.mul Rat.sub Rat.inv Rat.ofScientific

/-- The vignette length term halves the plain length. -/
theorem length2_half (x y : ℝ) : length2 (x * 0.5) (y * 0.5) = length2 x y * 0.5 := by
  unfold length2
  rw [show x * 0.5 * (x * 0.5) + y * 0.5 * (y * 0.5) = (x * x + y * y) * 0.5 ^ 2 by ring]
  rw [Real.sqrt_mul (by nlinarith [mul_self_nonneg x, mul_self_nonneg y]),
    Real.sqrt_sq (by norm_num)]

set_option maxRecDepth 1000000 in
set_option maxHeartbeats 16000000 in
/-- C5, counterexample: at time 0, the points (0.05, 0.05) and (0.1, 0.1)
lie on the segment from the center toward the corner (1,1), the second is
farther from the center, yet its output brightness is much larger, so the
output brightness does not strictly decrease as the distance from the
center grows. -/
theorem brightness_not_monotone_in_radius :
    ¬ (∀ (t x1 y1 x2 y2 : ℝ),
        -1 ≤ x1 → x1 ≤ 1 → -1 ≤ y1 → y1 ≤ 1 →
        -1 ≤ x2 → x2 ≤ 1 → -1 ≤ y2 → y2 ≤ 1 →
        length2 x1 y1 < length2 x2 y2 →
        brightness (shade x2 y2 t) < brightness (shade x1 y1 t)) := by
  intro hclaim
  obtain ⟨⟨hax1, hax2⟩, ⟨hay1, hay2⟩, ⟨haz1, haz2⟩⟩ := shadeIV_encl (1 / 20) (1 / 20) 0
  obtain ⟨⟨hbx1, hbx2⟩, ⟨hby1, hby2⟩, ⟨hbz1, hbz2⟩⟩ := shadeIV_encl (1 / 10) (1 / 10) 0
  have hnorm : length2 (((1 : ℚ) / 20 : ℚ) : ℝ) (((1 : ℚ) / 20 : ℚ) : ℝ) <
      length2 (((1 : ℚ) / 10 : ℚ) : ℝ) (((1 : ℚ) / 10 : ℚ) : ℝ) := by
    unfold length2
    apply Real.sqrt_lt_sqrt
    · push_cast
      norm_num
    · push_cast
      norm_num
  have hb := hclaim (((0 : ℚ) : ℝ))
    (((1 : ℚ) / 20 : ℚ) : ℝ) (((1 : ℚ) / 20 : ℚ) : ℝ)
    (((1 : ℚ) / 10 : ℚ) : ℝ) (((1 : ℚ) / 10 : ℚ) : ℝ)
    (by push_cast; norm_num) (by push_cast; norm_num)
    (by push_cast; norm_num) (by push_cast; norm_num)
    (by push_cast; norm_num) (by push_cast; norm_num)
    (by push_cast; norm_num) (by push_cast; norm_num) hnorm
  have hnum : (shadeIV (1 / 20) (1 / 20) 0).1.hi + (shadeIV (1 / 20) (1 / 20) 0).2.1.hi +
      (shadeIV (1 / 20) (1 / 20) 0).2.2.hi <
    (shadeIV (1 / 10) (1 / 10) 0).1.lo + (shadeIV (1 / 10) (1 / 10) 0).2.1.lo +
      (shadeIV (1 / 10) (1 / 10) 0).2.2.lo := by decide
  have hnum' : ((shadeIV (1 / 20) (1 / 20) 0).1.hi : ℝ) +
      ((shadeIV (1 / 20) (1 / 20) 0).2.1.hi : ℝ) +
      ((shadeIV (1 / 20) (1 / 20) 0).2.2.hi : ℝ) <
    ((shadeIV (1 / 10) (1 / 10) 0).1.lo : ℝ) +
      ((shadeIV (1 / 10) (1 / 10) 0).2.1.lo : ℝ) +
      ((shadeIV (1 / 10) (1 / 10) 0).2.2.lo : ℝ) := by exact_mod_cast hnum
  unfold brightness at hb
  linarith

/-- C5, amended: what does strictly decrease with the distance from the
center is the vignette multiplier; for a fixed positive pre-vignette
color, the output brightness therefore strictly decreases, but the full
output brightness is not monotone since the layer pattern and noise also
vary with the coordinate. -/
theorem vignette_strictly_darkens (x1 y1 x2 y2 : ℝ) (c : Vec3)
    (hlen : length2 x1 y1 < length2 x2 y2)
    (hcx : 0 < c.x) (hcy : 0 < c.y) (hcz : 0 < c.z) :
    vignetteFactor x2 y2 < vignetteFactor x1 y1 ∧
    brightness (v3smul (vignetteFactor x2 y2) c) <
      brightness (v3smul (vignetteFactor x1 y1) c) := by
  have hfac : vignetteFactor x2 y2 < vignetteFactor x1 y1 := by
    unfold vignetteFactor
    rw [length2_half, length2_half]
    nlinarith
  refine ⟨hfac, ?_⟩
  unfold brightness v3smul
  simp only [v3mk_x, v3mk_y, v3mk_z]
  nlinarith

/-- C5 amended witness at the center and the corner with a unit color. -/
theorem vignette_strictly_darkens_witness :
    length2 0 0 < length2 1 1 ∧
    (vignetteFactor 1 1 < vignetteFactor 0 0 ∧
      brightness (v3smul (vignetteFactor 1 1) ⟨1, 1, 1⟩) <
        brightness (v3smul (vignetteFactor 0 0) ⟨1, 1, 1⟩)) := by
  have hlen : length2 0 0 < length2 1 1 := by
    unfold length2
    rw [show (0 : ℝ) * 0 + 0 * 0 = 0 by ring, Real.sqrt_zero]
    rw [show (1 : ℝ) * 1 + 1 * 1 = 2 by ring]
    exact Real.sqrt_pos.mpr (by norm_num)
  exact ⟨hlen, vignette_strictly_darkens 0 0 1 1 ⟨1, 1, 1⟩ hlen
    (by norm_num) (by norm_num) (by norm_num)⟩

set_option maxRecDepth 1000000 in
set_option maxHeartbeats 16000000 in
/-- C7: at uv = (0,0), t = 0 the output is exactly the background blended
with the accumulated layer contributions with mix factor 0.8, the vignette
multiplier being exactly 1; at uv = (1,1), t = 0 the vignette multiplier
is exactly 0.7 + 0.3 * (1 - sqrt 2 * 0.5), and the corner output is
strictly darker than the center output. -/
theorem golden_center_and_corner :
    shade 0 0 0 =
      mixV3 (backgroundAt 0 0) (v3add (backgroundAt 0 0) (colSum 0 0 0)) 0.8 ∧
    vignetteFactor 0 0 = 1 ∧
    vignetteFactor 1 1 = 0.7 + 0.3 * (1 - Real.sqrt 2 * 0.5) ∧
    brightness (shade 1 1 0) < brightness (shade 0 0 0) := by
  have hv : vignetteFactor 0 0 = 1 := by
    unfold vignetteFactor length2
    rw [show (0 : ℝ) * 0.5 * (0 * 0.5) + 0 * 0.5 * (0 * 0.5) = 0 by ring, Real.sqrt_zero]
    norm_num
  have hcenter : shade 0 0 0 =
      mixV3 (backgroundAt 0 0) (v3add (backgroundAt 0 0) (colSum 0 0 0)) 0.8 := by
    show v3smul (vignetteFactor 0 0)
      (mixV3 (backgroundAt 0 0) (v3add (backgroundAt 0 0) (colSum (0 * 0.3) 0 0)) 0.8) =
      mixV3 (backgroundAt 0 0) (v3add (backgroundAt 0 0) (colSum 0 0 0)) 0.8
    rw [hv, show (0 : ℝ) * 0.3 = 0 from zero_mul _]
    unfold v3smul
    simp only [one_mul]
  have hcorner : vignetteFactor 1 1 = 0.7 + 0.3 * (1 - Real.sqrt 2 * 0.5) := by
    unfold vignetteFactor length2
    rw [show (1 : ℝ) * 0.5 * (1 * 0.5) + 1 * 0.5 * (1 * 0.5) = 2 * 0.5 ^ 2 by norm_num]
    rw [Real.sqrt_mul (by norm_num : (0 : ℝ) ≤ 2), Real.sqrt_sq (by norm_num : (0 : ℝ) ≤ 0.5)]
  refine ⟨hcenter, hv, hcorner, ?_⟩
  obtain ⟨⟨h1x1, h1x2⟩, ⟨h1y1, h1y2⟩, ⟨h1z1, h1z2⟩⟩ := shadeIV_encl 1 1 0
  obtain ⟨⟨h0x1, h0x2⟩, ⟨h0y1, h0y2⟩, ⟨h0z1, h0z2⟩⟩ := shadeIV_encl 0 0 0
  push_cast at h1x1 h1x2 h1y1 h1y2 h1z1 h1z2 h0x1 h0x2 h0y1 h0y2 h0z1 h0z2
  have hnum : (shadeIV 1 1 0).1.hi + (shadeIV 1 1 0).2.1.hi + (shadeIV 1 1 0).2.2.hi <
      (shadeIV 0 0 0).1.lo + (shadeIV 0 0 0).2.1.lo + (shadeIV 0 0 0).2.2.lo := by decide
  have hnum' : ((shadeIV 1 1 0).1.hi : ℝ) + ((shadeIV 1 1 0).2.1.hi : ℝ) +
      ((shadeIV 1 1 0).2.2.hi : ℝ) <
    ((shadeIV 0 0 0).1.lo : ℝ) + ((shadeIV 0 0 0).2.1.lo : ℝ) +
      ((shadeIV 0 0 0).2.2.lo : ℝ) := by exact_mod_cast hnum
  unfold brightness
  linarith

end NumericClaims

end NpSite
